import Mathlib

/- A verification development for the lintnet repository: a shallow embedding of
the module-reference parser (pkg/config/module.go), the lint controller
(pkg/controller/lint), and the lint-file parser/evaluator, together with
theorems settling the specification claims. Strings are modelled as `List Char`;
external collaborators (the jsonnet engine, JSON marshalling, the filesystem)
are universally quantified oracle functions. -/

/-- Whitespace per Go's unicode.IsSpace (the White_Space property):
ASCII whitespace, NEL, NBSP, and the Unicode space separators. -/
def goIsSpace (c : Char) : Bool :=
  c = ' ' || c = '\t' || c = '\n' || c = '\x0b' || c = '\x0c' || c = '\r' ||
  c = '\x85' || c = '\xa0' || c = ' ' ||
  (' ' ≤ c && c ≤ ' ') ||
  c = ' ' || c = ' ' || c = ' ' || c = ' ' || c = '　'

/-- Go strings.TrimSpace: drop leading and trailing whitespace. -/
def trimSpace (s : List Char) : List Char :=
  (s.dropWhile goIsSpace).rdropWhile goIsSpace

/-- Go strings.Split with a one-character separator: the pieces between
occurrences of the separator, in order; never empty. -/
def splitChar (sep : Char) : List Char → List (List Char)
  | [] => [[]]
  | c :: cs =>
    match splitChar sep cs with
    | [] => [[]]
    | r :: rs => if c = sep then [] :: r :: rs else (c :: r) :: rs

/-- Go strings.Join with a one-character separator. -/
def joinChar (sep : Char) : List (List Char) → List Char
  | [] => []
  | [x] => x
  | x :: y :: xs => x ++ sep :: joinChar sep (y :: xs)

/-- Go strings.Cut with a one-character separator: splits around the first
occurrence, returning (before, after, found); `(s, "", false)` when absent. -/
def cutChar (sep : Char) : List Char → List Char × List Char × Bool
  | [] => ([], [], false)
  | c :: cs =>
    if c = sep then ([], cs, true)
    else
      let r := cutChar sep cs
      (c :: r.1, r.2.1, r.2.2)

/-- A character matched by the regexp character class [a-fA-F0-9]. -/
def isGoHexDigit (c : Char) : Bool :=
  ('a' ≤ c && c ≤ 'f') || ('A' ≤ c && c ≤ 'F') || ('0' ≤ c && c ≤ '9')

/-- `fullCommitHashPattern.MatchString ref` for the pattern `[a-fA-F0-9]{40}`:
an unanchored search, true iff SOME substring of 40 consecutive characters is
all hex digits. -/
def fullCommitHashMatch (s : List Char) : Bool :=
  (List.range s.length).any fun i =>
    ((s.drop i).take 40).length == 40 && ((s.drop i).take 40).all isGoHexDigit

/-- pkg/config/module.go validateRef. -/
def validateRef (ref : List Char) : Except (List Char) Unit :=
  if fullCommitHashMatch ref then Except.ok ()
  else Except.error ("ref must be full commit hash".data)

/-- pkg/config/module.go ModuleArchive (the `ty` field is Go's `Type`). -/
structure ModuleArchive where
  ty : List Char
  host : List Char
  repoOwner : List Char
  repoName : List Char
  ref : List Char
  tag : List Char
deriving DecidableEq

/-- pkg/config/module.go ModuleGlob as produced by ParseModuleLine
(the Config field is never set there and is omitted). -/
structure ModuleGlob where
  id : List Char
  slashPath : List Char
  archive : Option ModuleArchive
  excluded : Bool
deriving DecidableEq

/-- The body of ParseModuleLine working on the slash-separated segments of
the trimmed, `!`-stripped declaration `line`: at least four segments, the
first fixed to github.com, a `@` separating path from ref, a `:` separating
ref from tag, and a validated ref. -/
def parseElems (line : List Char) (excluded : Bool) :
    List (List Char) → Except (List Char) ModuleGlob
  | e0 :: e1 :: e2 :: e3 :: rest =>
    if e0 ≠ "github.com".data then
      Except.error ("module must start with github.com/".data)
    else
      match cutChar '@' (joinChar '/' (e3 :: rest)) with
      | (_, _, false) => Except.error ("ref is required".data)
      | (path, refAndTag, true) =>
        match cutChar ':' refAndTag with
        | (ref, tag, _) =>
          match validateRef ref with
          | Except.error e => Except.error e
          | Except.ok _ =>
            Except.ok
              { id := line
                slashPath := joinChar '/' [e0, e1, e2, ref, path]
                archive := some
                  { ty := "github".data
                    host := "github.com".data
                    repoOwner := e1
                    repoName := e2
                    ref := ref
                    tag := tag }
                excluded := excluded }
  | _ => Except.error ("line is invalid".data)

/-- The body of ParseModuleLine after the exclusion marker has been handled:
split the declaration on slashes and parse the segments. -/
def parseAfterExcl (line : List Char) (excluded : Bool) :
    Except (List Char) ModuleGlob :=
  parseElems line excluded (splitChar '/' line)

/-- pkg/config/module.go ParseModuleLine: trim the line, strip and record an
optional leading `!` (re-trimming after it), then parse the declaration. -/
def ParseModuleLine (l0 : List Char) : Except (List Char) ModuleGlob :=
  let line1 := trimSpace l0
  if line1.head? = some '!' then parseAfterExcl (trimSpace (line1.drop 1)) true
  else parseAfterExcl line1 false

/-- The declaration text ParseModuleLine actually parses (and records as the
id): the line after trimming surrounding whitespace and removing a leading
`!` (re-trimming after the removal). -/
def effectiveLine (l0 : List Char) : List Char :=
  if (trimSpace l0).head? = some '!' then trimSpace ((trimSpace l0).drop 1)
  else trimSpace l0

/-- A JSON value, the shape shared by decoded data files, top-level arguments
and engine outputs. -/
inductive JSONValue where
  | null
  | bool (b : Bool)
  | num (n : Int)
  | str (s : List Char)
  | arr (elems : List JSONValue)
  | obj (fields : List (List Char × JSONValue))

/-- A Go map[string]any, as it appears in configs and custom parameters. -/
abbrev Cfg := List (List Char × JSONValue)

/-- An opaque jsonnet AST (jsonnet.Node); consumed only by oracle functions. -/
abbrev JsonnetNode := List Char

/-- Modelled from the spec: domain.JsonnetResult, one structured finding from a
rule's output (required `message` string, optional `level` string); the domain
package is absent from the sources. -/
structure JsonnetResult where
  message : List Char
  level : Option (List Char)

/-- Look up a JSON object field by name (first occurrence). -/
def lookupField (fields : List (List Char × JSONValue)) (k : List Char) :
    Option JSONValue :=
  (fields.find? fun p => p.1 = k).map Prod.snd

/-- Modelled from the spec: decoding one finding object (an object with a
required `message` string field and an optional `level` string field). -/
def decodeFinding : JSONValue → Option JsonnetResult
  | JSONValue.obj fields =>
    match lookupField fields ("message".data) with
    | some (JSONValue.str m) =>
      match lookupField fields ("level".data) with
      | none => some { message := m, level := none }
      | some (JSONValue.str l) => some { message := m, level := some l }
      | some _ => none
    | _ => none
  | _ => none

/-- Modelled from the spec: the structured decode of an engine output into
`[]*domain.JsonnetResult` — an array of finding objects. -/
def decodeFindings : JSONValue → Option (List JsonnetResult)
  | JSONValue.arr elems => elems.mapM decodeFinding
  | _ => none

/-- The error text of a failed json.Unmarshal inside parseResult (the
underlying library message is external and elided). -/
def unmarshalErrMsg : List Char := "unmarshal the result as JSON".data

/-- parseResult from the lint package: decode the engine output once into an
untyped value and once into structured findings, returning
(findings?, untyped?, error?). `jd` is the JSON decoding oracle for the first,
untyped decode. -/
def parseResult (jd : List Char → Option JSONValue) (result : List Char) :
    Option (List JsonnetResult) × Option JSONValue × Option (List Char) :=
  match jd result with
  | none => (none, none, some unmarshalErrMsg)
  | some rs =>
    match decodeFindings rs with
    | none => (none, some rs, some unmarshalErrMsg)
    | some out => (some out, some rs, none)

/-- config.LintFile (fields used by LintFileParser.Parse). -/
structure LintFile where
  path : List Char
  id : List Char
  config : Option Cfg

/-- domain.Node: a parsed rule file. -/
structure NodeD where
  node : JsonnetNode
  key : List Char
  config : Option Cfg
  combine : Bool

/-- domain.TopLevelArgment (sic): the structured input of one evaluation. -/
structure TopLevelArgment where
  data : Option JSONValue
  combinedData : Option (List JSONValue)
  config : Option Cfg

/-- domain.Result: the outcome of evaluating one rule against one data file. -/
structure ResultD where
  lintFile : List Char
  rawResult : Option (List JsonnetResult)
  rawOutput : List Char
  iface : Option JSONValue
  error : Option (List Char)

/-- LintFileParser.Parse: read the rule file into an AST (`readToNode` is the
filesystem/jsonnet oracle) and build the rule node; the combine flag holds
exactly when the file path ends in `_combine.jsonnet`. -/
def parseLintFile (readToNode : List Char → Except (List Char) JsonnetNode)
    (lintFile : LintFile) : Except (List Char) NodeD :=
  match readToNode lintFile.path with
  | Except.error e => Except.error e
  | Except.ok node =>
    Except.ok
      { node := node
        key := lintFile.id
        config := lintFile.config
        combine := ("_combine.jsonnet".data).isSuffixOf lintFile.path }

/-- LintFileEvaluator.Evaluate: default a nil config to an empty map, marshal
the top-level argument (oracle `marshal`), then run the engine (oracle `vm`). -/
def Evaluate (marshal : TopLevelArgment → Except (List Char) (List Char))
    (vm : List Char → JsonnetNode → Except (List Char) (List Char))
    (tla : TopLevelArgment) (lintFile : JsonnetNode) :
    Except (List Char) (List Char) :=
  let tla2 :=
    match tla.config with
    | none => { tla with config := some ([] : Cfg) }
    | some _ => tla
  match marshal tla2 with
  | Except.error e =>
    Except.error ("marshal a top level argument as JSON: ".data ++ e)
  | Except.ok tlaB =>
    match vm tlaB lintFile with
    | Except.error e =>
      Except.error ("evaluate a lint file as Jsonnet: ".data ++ e)
    | Except.ok result => Except.ok result

/-- The per-rule top-level argument built inside the Evaluates loop: the
incoming data and combined data with the rule's own config. -/
def perRuleTLA (tla : TopLevelArgment) (lf : NodeD) : TopLevelArgment :=
  { data := tla.data, combinedData := tla.combinedData, config := lf.config }

/-- The loop body of LintFileEvaluator.Evaluates: evaluate one rule node with
the data and combined data of the incoming argument and the rule's own config,
then package its outcome. -/
def evaluateLintFile (marshal : TopLevelArgment → Except (List Char) (List Char))
    (vm : List Char → JsonnetNode → Except (List Char) (List Char))
    (jd : List Char → Option JSONValue)
    (tla : TopLevelArgment) (lf : NodeD) : ResultD :=
  match Evaluate marshal vm (perRuleTLA tla lf) lf.node with
  | Except.error e =>
    { lintFile := lf.key, rawResult := none, rawOutput := [],
      iface := none, error := some e }
  | Except.ok s =>
    { lintFile := lf.key, rawResult := (parseResult jd s).1, rawOutput := s,
      iface := (parseResult jd s).2.1, error := (parseResult jd s).2.2 }

/-- LintFileEvaluator.Evaluates: one outcome per rule node, in order. -/
def Evaluates (marshal : TopLevelArgment → Except (List Char) (List Char))
    (vm : List Char → JsonnetNode → Except (List Char) (List Char))
    (jd : List Char → Option JSONValue)
    (tla : TopLevelArgment) (lintFiles : List NodeD) : List ResultD :=
  lintFiles.map (evaluateLintFile marshal vm jd tla)

/-- controller/lint Node (the older generation used by Controller.lint):
a parsed rule file with its custom parameters. -/
structure Node1 where
  node : JsonnetNode
  custom : Option Cfg
  key : List Char

/-- controller/lint TopLevelArgment (sic) of the older generation:
the data-file value plus the rule's custom parameters. -/
structure TopLevelArgment1 where
  data : JSONValue
  custom : Cfg

/-- controller/lint JsonnetEvaluateResult: one rule's evaluation outcome. -/
structure JsonnetEvaluateResult where
  key : List Char
  result : Option (List Char)
  error : Option (List Char)

/-- Controller.evaluateNode: build the top-level argument (defaulting nil
custom parameters to an empty map), marshal it (oracle `marshal1`) and run the
engine (oracle `vm`); an error at either step becomes this outcome's error. -/
def evaluateNode (marshal1 : TopLevelArgment1 → Except (List Char) (List Char))
    (vm : List Char → JsonnetNode → Except (List Char) (List Char))
    (data : JSONValue) (ja : Node1) : JsonnetEvaluateResult :=
  let tla : TopLevelArgment1 := { data := data, custom := ja.custom.getD [] }
  match marshal1 tla with
  | Except.error e =>
    { key := ja.key, result := none,
      error := some ("marshal a top level argument as JSON: ".data ++ e) }
  | Except.ok tlaB =>
    match vm tlaB ja.node with
    | Except.error e => { key := ja.key, result := none, error := some e }
    | Except.ok result =>
      { key := ja.key, result := some result, error := none }

/-- Controller.evaluate: one outcome per rule AST, in order. -/
def evaluate (marshal1 : TopLevelArgment1 → Except (List Char) (List Char))
    (vm : List Char → JsonnetNode → Except (List Char) (List Char))
    (data : JSONValue) (jsonnetAsts : List Node1) : List JsonnetEvaluateResult :=
  jsonnetAsts.map (evaluateNode marshal1 vm data)

/-- controller/lint Target: the rule files and data files to cross-evaluate. -/
structure Target where
  lintFiles : List LintFile
  dataFiles : List (List Char)

/-- FileResult for one data file: its per-rule results (converted by the
Controller's result parser, a function `conv` of type
JsonnetEvaluateResult → R), or a file-level error. -/
structure FileResult (R : Type) where
  results : Option (List R)
  error : Option (List Char)

/-- The final result map, modelled as an association list with the
update-or-append insertion of a Go map. -/
abbrev FRMap (R : Type) := List (List Char × FileResult R)

/-- Go map assignment `m[k] = v`: replace the binding when the key is present,
append it otherwise. -/
def goInsert {R : Type} : FRMap R → List Char → FileResult R → FRMap R
  | [], k, v => [(k, v)]
  | (k1, v1) :: rest, k, v =>
    if k1 = k then (k, v) :: rest else (k1, v1) :: goInsert rest k v

/-- Go map lookup `m[k]`. -/
def lookupFR {R : Type} : FRMap R → List Char → Option (FileResult R)
  | [], _ => none
  | (k1, v1) :: rest, k => if k1 = k then some v1 else lookupFR rest k

/-- Controller.lint: decode the data file (oracle `parseDF`, standing for
Controller.parseDataFile), evaluate every rule against it, and convert each
raw outcome with the Controller's result parser `conv`. -/
def lintOne {R : Type}
    (marshal1 : TopLevelArgment1 → Except (List Char) (List Char))
    (vm : List Char → JsonnetNode → Except (List Char) (List Char))
    (parseDF : List Char → Except (List Char) JSONValue)
    (conv : JsonnetEvaluateResult → R)
    (dataFile : List Char) (jsonnetAsts : List Node1) :
    Except (List Char) (List R) :=
  match parseDF dataFile with
  | Except.error e => Except.error e
  | Except.ok tla => Except.ok ((evaluate marshal1 vm tla jsonnetAsts).map conv)

/-- The FileResult recorded for one data file inside Controller.lintTarget:
a file-level error when Controller.lint fails, its results otherwise. -/
def lintDataFileFR {R : Type}
    (marshal1 : TopLevelArgment1 → Except (List Char) (List Char))
    (vm : List Char → JsonnetNode → Except (List Char) (List Char))
    (parseDF : List Char → Except (List Char) JSONValue)
    (conv : JsonnetEvaluateResult → R)
    (asts : List Node1) (dataFile : List Char) : FileResult R :=
  match lintOne marshal1 vm parseDF conv dataFile asts with
  | Except.error e => { results := none, error := some e }
  | Except.ok rs => { results := some rs, error := none }

/-- Controller.lintTarget: read the target's rule files (oracle `readJ`,
standing for Controller.readJsonnets) and record one FileResult per data file
into the shared result map, in data-file order. -/
def lintTarget {R : Type}
    (marshal1 : TopLevelArgment1 → Except (List Char) (List Char))
    (vm : List Char → JsonnetNode → Except (List Char) (List Char))
    (parseDF : List Char → Except (List Char) JSONValue)
    (conv : JsonnetEvaluateResult → R)
    (readJ : List LintFile → Except (List Char) (List Node1))
    (t : Target) (results : FRMap R) : Except (List Char) (FRMap R) :=
  match readJ t.lintFiles with
  | Except.error e => Except.error e
  | Except.ok asts =>
    Except.ok (t.dataFiles.foldl
      (fun m f => goInsert m f (lintDataFileFR marshal1 vm parseDF conv asts f))
      results)

/-- The loop of Controller.getResults over the targets, threading the map. -/
def getResultsAux {R : Type}
    (marshal1 : TopLevelArgment1 → Except (List Char) (List Char))
    (vm : List Char → JsonnetNode → Except (List Char) (List Char))
    (parseDF : List Char → Except (List Char) JSONValue)
    (conv : JsonnetEvaluateResult → R)
    (readJ : List LintFile → Except (List Char) (List Node1)) :
    List Target → FRMap R → Except (List Char) (FRMap R)
  | [], m => Except.ok m
  | t :: ts, m =>
    match lintTarget marshal1 vm parseDF conv readJ t m with
    | Except.error e => Except.error e
    | Except.ok m2 => getResultsAux marshal1 vm parseDF conv readJ ts m2

/-- Controller.getResults: lint every target into one shared result map. -/
def getResults {R : Type}
    (marshal1 : TopLevelArgment1 → Except (List Char) (List Char))
    (vm : List Char → JsonnetNode → Except (List Char) (List Char))
    (parseDF : List Char → Except (List Char) JSONValue)
    (conv : JsonnetEvaluateResult → R)
    (readJ : List LintFile → Except (List Char) (List Node1))
    (targets : List Target) : Except (List Char) (FRMap R) :=
  getResultsAux marshal1 vm parseDF conv readJ targets []

/-- The severity levels, a totally ordered enum. -/
inductive Level where
  | debug
  | info
  | warn
  | error
deriving DecidableEq

/-- Modelled from the spec: the errlevel package's New, absent from the
sources — it maps a threshold string to a defined level and fails on any
other string. -/
def errlevelNew (s : List Char) : Except (List Char) Level :=
  if s = "debug".data then Except.ok Level.debug
  else if s = "info".data then Except.ok Level.info
  else if s = "warn".data then Except.ok Level.warn
  else if s = "error".data then Except.ok Level.error
  else Except.error ("invalid error level: ".data ++ s)

/-- Controller.getErrorLevel: an empty threshold string defaults to the error
level; any other string must name a defined level. -/
def getErrorLevel (errorLevel : List Char) : Except (List Char) Level :=
  if errorLevel = [] then Except.ok Level.error else errlevelNew errorLevel

/-- The tail of Controller.Lint after target discovery: resolve the error
level, then compute the results; the pair returned is what the output
collaborator consumes. -/
def lintRun {R : Type}
    (marshal1 : TopLevelArgment1 → Except (List Char) (List Char))
    (vm : List Char → JsonnetNode → Except (List Char) (List Char))
    (parseDF : List Char → Except (List Char) JSONValue)
    (conv : JsonnetEvaluateResult → R)
    (readJ : List LintFile → Except (List Char) (List Node1))
    (errorLevel : List Char) (targets : List Target) :
    Except (List Char) (Level × FRMap R) :=
  match getErrorLevel errorLevel with
  | Except.error e => Except.error e
  | Except.ok lvl =>
    match getResults marshal1 vm parseDF conv readJ targets with
    | Except.error e => Except.error e
    | Except.ok results => Except.ok (lvl, results)

/-- The top-level argument of one (rule, data file) pair: the file's own
decoded value as data, the target's combined data exactly when the rule is
combine-flagged, and the rule's declared configuration. -/
def buildTLA (combined : List JSONValue) (d : JSONValue) (rule : NodeD) :
    TopLevelArgment :=
  if rule.combine then
    { data := some d, combinedData := some combined, config := rule.config }
  else
    { data := some d, combinedData := none, config := rule.config }

/-- Modelled from the spec: the per-target combine orchestration (the caller
of LintFileEvaluator.Evaluate, absent from the sources) — the combined data is
computed once per target as the ordered list of all decoded data values, and
every (data file, rule) pair is evaluated with its own top-level argument. -/
def evaluateTarget
    (marshal : TopLevelArgment → Except (List Char) (List Char))
    (vm : List Char → JsonnetNode → Except (List Char) (List Char))
    (jd : List Char → Option JSONValue)
    (rules : List NodeD) (dataValues : List JSONValue) : List (List ResultD) :=
  dataValues.map fun d =>
    rules.map fun rule =>
      evaluateLintFile marshal vm jd (buildTLA dataValues d rule) rule

/-- The concrete declaration line of the C3 counterexample. -/
def c3Line : List Char :=
  "github.com/o/r/p@".data ++ List.replicate 40 'a' ++ ":t".data

/-- The concrete declaration line of the C7 counterexample. -/
def c7Line : List Char := "!github.com/o/r/p@".data ++ List.replicate 40 'a'

/-- The concrete declaration line of the C8 counterexample. -/
def c8Line : List Char := "!github.com/o/r/q@".data ++ List.replicate 40 'b'

/-- The concrete declaration line of the C7 witness. -/
def c7WLine : List Char := "github.com/ow/re/pp@".data ++ List.replicate 40 'c'

/-- The concrete declaration line of the C8 witness. -/
def c8WLine : List Char := "github.com/o2/r2/p2@".data ++ List.replicate 40 'd'

/-- The parse of the C8 witness line prefixed with the exclusion marker. -/
def c8WModuleE : ModuleGlob :=
  { id := c8WLine
    slashPath := "github.com/o2/r2/".data ++ List.replicate 40 'd' ++ "/p2".data
    archive := some
      { ty := "github".data
        host := "github.com".data
        repoOwner := "o2".data
        repoName := "r2".data
        ref := List.replicate 40 'd'
        tag := [] }
    excluded := true }

/-- The JSON-decoding oracle of the C5 witness: everything decodes to 5. -/
def c5Wjd : List Char → Option JSONValue := fun _ => some (JSONValue.num 5)

/-- The marshalling oracle of the C5 witness. -/
def c5Wmarshal : TopLevelArgment → Except (List Char) (List Char) :=
  fun _ => Except.ok []

/-- The engine oracle of the C5 witness: every rule outputs the empty string. -/
def c5Wvm : List Char → JsonnetNode → Except (List Char) (List Char) :=
  fun _ _ => Except.ok []

/-- The rule node of the C5 witness. -/
def c5Wlf : NodeD :=
  { node := [], key := "k".data, config := none, combine := false }

/-- The incoming top-level argument of the C5 witness. -/
def c5Wtla : TopLevelArgment :=
  { data := none, combinedData := none, config := none }

/-- The marshalling oracle of the C4 witness. -/
def c4Wmarshal : TopLevelArgment → Except (List Char) (List Char) :=
  fun _ => Except.ok []

/-- The engine oracle of the C4 witness. -/
def c4Wvm : List Char → JsonnetNode → Except (List Char) (List Char) :=
  fun _ _ => Except.ok []

/-- The JSON-decoding oracle of the C4 witness. -/
def c4Wjd : List Char → Option JSONValue := fun _ => none

/-- The combine-flagged rule node of the C4 witness. -/
def c4Wrule : NodeD :=
  { node := [], key := "r".data, config := none, combine := true }

/-- The data values of the C4 witness target. -/
def c4Wdvals : List JSONValue := [JSONValue.null, JSONValue.num 2]

/-- The FileResult a target would record for a data file it contains: none
when the target's rule files cannot be read. -/
def targetFR {R : Type}
    (marshal1 : TopLevelArgment1 → Except (List Char) (List Char))
    (vm : List Char → JsonnetNode → Except (List Char) (List Char))
    (parseDF : List Char → Except (List Char) JSONValue)
    (conv : JsonnetEvaluateResult → R)
    (readJ : List LintFile → Except (List Char) (List Node1))
    (t : Target) (p : List Char) : Option (FileResult R) :=
  match readJ t.lintFiles with
  | Except.ok asts =>
    if p ∈ t.dataFiles then
      some (lintDataFileFR marshal1 vm parseDF conv asts p)
    else none
  | Except.error _ => none

/-- The FileResult surviving for a data-file path after a list of targets has
been processed in order: the last target containing the path wins. -/
def lastFR {R : Type}
    (marshal1 : TopLevelArgment1 → Except (List Char) (List Char))
    (vm : List Char → JsonnetNode → Except (List Char) (List Char))
    (parseDF : List Char → Except (List Char) JSONValue)
    (conv : JsonnetEvaluateResult → R)
    (readJ : List LintFile → Except (List Char) (List Node1)) :
    List Target → List Char → Option (FileResult R)
  | [], _ => none
  | t :: ts, p =>
    (lastFR marshal1 vm parseDF conv readJ ts p).or
      (targetFR marshal1 vm parseDF conv readJ t p)

/-- The marshalling oracle of the C9 witness. -/
def c9Wmarshal1 : TopLevelArgment1 → Except (List Char) (List Char) :=
  fun _ => Except.ok []

/-- The engine oracle of the C9 witness: every evaluation fails. -/
def c9Wvm : List Char → JsonnetNode → Except (List Char) (List Char) :=
  fun _ _ => Except.error ("engine failure".data)

/-- The data-file decoding oracle of the C9 witness. -/
def c9WparseDF : List Char → Except (List Char) JSONValue :=
  fun _ => Except.ok JSONValue.null

/-- The result-conversion oracle of the C9 witness. -/
def c9Wconv : JsonnetEvaluateResult → Unit := fun _ => ()

/-- The rule-file reading oracle of the C9 witness. -/
def c9WreadJ : List LintFile → Except (List Char) (List Node1) :=
  fun _ => Except.ok [{ node := [], custom := none, key := "k".data }]

/-- Two targets of the C9 witness that share the data file `a`. -/
def c9Wtargets : List Target :=
  [{ lintFiles := [], dataFiles := ["a".data] },
   { lintFiles := [], dataFiles := ["a".data, "b".data] }]

/-- The marshalling oracle of the C1 witness. -/
def c1Wmarshal1 : TopLevelArgment1 → Except (List Char) (List Char) :=
  fun _ => Except.ok []

/-- The engine oracle of the C1 witness: every evaluation fails, exercising
the isolation property. -/
def c1Wvm : List Char → JsonnetNode → Except (List Char) (List Char) :=
  fun _ _ => Except.error ("runtime error".data)

/-- The data-file decoding oracle of the C1 witness. -/
def c1WparseDF : List Char → Except (List Char) JSONValue :=
  fun _ => Except.ok JSONValue.null

/-- The result-conversion oracle of the C1 witness. -/
def c1Wconv : JsonnetEvaluateResult → Unit := fun _ => ()

/-- The rule-file reading oracle of the C1 witness: two rule nodes. -/
def c1WreadJ : List LintFile → Except (List Char) (List Node1) :=
  fun _ => Except.ok
    [{ node := [], custom := none, key := "r1".data },
     { node := [], custom := none, key := "r2".data }]

/-- The targets of the C1 witness: two data files in one target. -/
def c1Wtargets : List Target :=
  [{ lintFiles := [], dataFiles := ["x".data, "y".data] }]

/-- C2: the spec claims validateRef accepts exactly the 40-character hex
strings; the code's regexp match is unanchored, so a 41-character hex string
(and a string with non-hex characters around a 40-hex run) is accepted, while
a 39-character hex string is rejected. This theorem evaluates the code at the
failing inputs. -/
theorem c2_validateRef_unanchored_bug :
    (validateRef (List.replicate 41 'a')).isOk = true ∧
    (List.replicate 41 'a').length = 41 ∧
    (validateRef ('z' :: 'z' :: List.replicate 40 'a')).isOk = true ∧
    (validateRef (List.replicate 39 'a')).isOk = false := by decide

/-- C3 counterexample: parsing `github.com/o/r/p@<40 hex>:t` yields a
slashPath beginning with the host, not the claimed `o/r/<hash>/p`. -/
theorem c3_slashPath_counterexample :
    (ParseModuleLine c3Line).toOption.map ModuleGlob.slashPath =
      some ("github.com/o/r/".data ++ List.replicate 40 'a' ++ "/p".data) ∧
    (ParseModuleLine c3Line).toOption.map ModuleGlob.slashPath ≠
      some ("o/r/".data ++ List.replicate 40 'a' ++ "/p".data) := by decide

/-- C7 counterexample: for a line already starting with `!`, prepending `!`
does not merely flip the excluded flag — the original line parses but the
doubly-marked line is rejected. -/
theorem c7_doubleExcl_counterexample :
    (ParseModuleLine ('!' :: c7Line)).isOk = false ∧
    (ParseModuleLine c7Line).isOk = true := by decide

/-- C8 counterexample: for an excluded declaration the id is the line with the
leading `!` stripped, not the original declaration text. -/
theorem c8_id_counterexample :
    (ParseModuleLine c8Line).toOption.map ModuleGlob.id =
      some ("github.com/o/r/q@".data ++ List.replicate 40 'b') ∧
    (ParseModuleLine c8Line).toOption.map ModuleGlob.id ≠ some c8Line := by
  decide

theorem rdropWhile_cons_of_neg (p : α → Bool) (c : α) (l : List α)
    (hc : ¬p c) : (c :: l).rdropWhile p = c :: l.rdropWhile p := by
  induction l using List.reverseRecOn with
  | nil => simp [List.rdropWhile_singleton, hc]
  | append_singleton M x ih =>
    by_cases hx : p x
    · rw [← List.cons_append, List.rdropWhile_concat_pos _ _ _ hx,
        List.rdropWhile_concat_pos _ _ _ hx, ih]
    · rw [← List.cons_append, List.rdropWhile_concat_neg _ _ _ hx,
        List.rdropWhile_concat_neg _ _ _ hx]
      simp

theorem rdropWhile_dropWhile_rdropWhile (p : α → Bool) (L : List α) :
    ((L.rdropWhile p).dropWhile p).rdropWhile p =
      (L.dropWhile p).rdropWhile p := by
  induction L using List.reverseRecOn with
  | nil => simp
  | append_singleton M x ih =>
    by_cases hx : p x
    · rw [List.rdropWhile_concat_pos _ _ _ hx, ih, List.dropWhile_append]
      by_cases hM : (M.dropWhile p).isEmpty
      · rw [if_pos hM, List.isEmpty_iff.mp hM]
        simp [List.dropWhile_cons_of_pos, hx]
      · rw [if_neg hM, List.rdropWhile_concat_pos _ _ _ hx]
    · rw [List.rdropWhile_concat_neg _ _ _ hx]

/-- Trimming is unaffected by first trimming the right side. -/
theorem trimSpace_rdropWhile (L : List Char) :
    trimSpace (L.rdropWhile goIsSpace) = trimSpace L := by
  unfold trimSpace
  rw [← rdropWhile_dropWhile_rdropWhile goIsSpace L]

/-- The excluded flag is pure output: the parse of a declaration body does not
depend on it. -/
theorem parseAfterExcl_map_excluded (line : List Char) (e : Bool) :
    parseAfterExcl line e =
      (parseAfterExcl line false).map fun m => { m with excluded := e } := by
  unfold parseAfterExcl parseElems
  repeat' split
  all_goals rfl

/-- A leading non-whitespace character survives trimming and the rest is
right-trimmed only. -/
theorem trimSpace_excl_cons (L : List Char) :
    trimSpace ('!' :: L) = '!' :: L.rdropWhile goIsSpace := by
  unfold trimSpace
  rw [List.dropWhile_cons_of_neg (by decide)]
  exact rdropWhile_cons_of_neg goIsSpace '!' L (by decide)

theorem parseAfterExcl_ok_id (line : List Char) (e : Bool) (m : ModuleGlob)
    (hm : parseAfterExcl line e = Except.ok m) : m.id = line := by
  unfold parseAfterExcl parseElems at hm
  repeat' split at hm
  all_goals first
  | exact Except.noConfusion hm
  | (injection hm with h2; subst h2; rfl)

theorem parseAfterExcl_ok_excluded (line : List Char) (e : Bool)
    (m : ModuleGlob) (hm : parseAfterExcl line e = Except.ok m) :
    m.excluded = e := by
  unfold parseAfterExcl parseElems at hm
  repeat' split at hm
  all_goals first
  | exact Except.noConfusion hm
  | (injection hm with h2; subst h2; rfl)

/-- C7 amended: for every declaration line L that does not itself begin (after
trimming) with the exclusion marker, parsing `!` ++ L yields the same result
as parsing L except that the excluded flag is true: both succeed or both fail
with the same error, and on success all fields other than excluded are equal
(and L's own parse has excluded = false). -/
theorem c7_excl_amended (L : List Char) (h : (trimSpace L).head? ≠ some '!') :
    ParseModuleLine ('!' :: L) =
      (ParseModuleLine L).map (fun m => { m with excluded := true }) ∧
    ∀ m, ParseModuleLine L = Except.ok m → m.excluded = false := by
  have h1 : ParseModuleLine ('!' :: L) = parseAfterExcl (trimSpace L) true := by
    show (if (trimSpace ('!' :: L)).head? = some '!' then
            parseAfterExcl (trimSpace ((trimSpace ('!' :: L)).drop 1)) true
          else parseAfterExcl (trimSpace ('!' :: L)) false) = _
    rw [trimSpace_excl_cons]
    simp only [List.head?_cons, if_pos, List.drop_succ_cons, List.drop_zero]
    rw [trimSpace_rdropWhile]
  have h2 : ParseModuleLine L = parseAfterExcl (trimSpace L) false := by
    show (if (trimSpace L).head? = some '!' then
            parseAfterExcl (trimSpace ((trimSpace L).drop 1)) true
          else parseAfterExcl (trimSpace L) false) = _
    rw [if_neg h]
  refine ⟨?_, ?_⟩
  · rw [h1, h2, parseAfterExcl_map_excluded (trimSpace L) true]
  · intro m hm
    rw [h2] at hm
    exact parseAfterExcl_ok_excluded _ _ _ hm

theorem c7_excl_amended_witness :
    ParseModuleLine ('!' :: c7WLine) =
      (ParseModuleLine c7WLine).map (fun m => { m with excluded := true }) ∧
    ∀ m, ParseModuleLine c7WLine = Except.ok m → m.excluded = false :=
  c7_excl_amended c7WLine (by decide)

theorem trimSpace_infix_self (s : List Char) : trimSpace s <:+: s := by
  unfold trimSpace
  exact List.IsInfix.trans
    (List.IsPrefix.isInfix (List.rdropWhile_prefix _ _))
    (List.IsSuffix.isInfix (List.dropWhile_suffix _))

theorem trimSpace_length_le (s : List Char) :
    (trimSpace s).length ≤ s.length :=
  (trimSpace_infix_self s).sublist.length_le

/-- C8 amended: for every declaration line that parses successfully, the id
equals the declaration text after surrounding whitespace is trimmed and a
leading `!` removed (with re-trimming) — and the id equals the original
declaration text exactly when the line is already trimmed and carries no
exclusion marker. -/
theorem c8_id_amended (L : List Char) (m : ModuleGlob)
    (hok : ParseModuleLine L = Except.ok m) :
    m.id = effectiveLine L ∧
    (m.id = L ↔ (trimSpace L = L ∧ (trimSpace L).head? ≠ some '!')) := by
  have hok2 : (if (trimSpace L).head? = some '!' then
      parseAfterExcl (trimSpace ((trimSpace L).drop 1)) true
    else parseAfterExcl (trimSpace L) false) = Except.ok m := hok
  have heff1 : (trimSpace L).head? = some '!' →
      effectiveLine L = trimSpace ((trimSpace L).drop 1) := by
    intro hx
    unfold effectiveLine
    rw [if_pos hx]
  have heff2 : (trimSpace L).head? ≠ some '!' →
      effectiveLine L = trimSpace L := by
    intro hx
    unfold effectiveLine
    rw [if_neg hx]
  have hid : m.id = effectiveLine L := by
    by_cases hx : (trimSpace L).head? = some '!'
    · rw [if_pos hx] at hok2
      rw [heff1 hx]
      exact parseAfterExcl_ok_id _ _ _ hok2
    · rw [if_neg hx] at hok2
      rw [heff2 hx]
      exact parseAfterExcl_ok_id _ _ _ hok2
  refine ⟨hid, ?_, ?_⟩
  · intro hidL
    by_cases hx : (trimSpace L).head? = some '!'
    · exfalso
      have hne : trimSpace L ≠ [] := by
        intro hnil
        rw [hnil] at hx
        exact Option.noConfusion hx
      have h1 : (effectiveLine L).length ≤ ((trimSpace L).drop 1).length := by
        rw [heff1 hx]
        exact trimSpace_length_le _
      have h2 : ((trimSpace L).drop 1).length < (trimSpace L).length := by
        rw [List.length_drop]
        have hpos : 0 < (trimSpace L).length := List.length_pos.mpr hne
        omega
      have h3 : (trimSpace L).length ≤ L.length := trimSpace_length_le L
      have h4 : (effectiveLine L).length = L.length := by
        rw [hid.symm.trans hidL]
      omega
    · refine ⟨?_, hx⟩
      rw [← heff2 hx, ← hid, hidL]
  · rintro ⟨htr, hx⟩
    rw [hid, heff2 hx, htr]

theorem c8_id_amended_witness :
    c8WModuleE.id = effectiveLine ('!' :: c8WLine) ∧
    (c8WModuleE.id = ('!' :: c8WLine) ↔
      (trimSpace ('!' :: c8WLine) = ('!' :: c8WLine) ∧
        (trimSpace ('!' :: c8WLine)).head? ≠ some '!')) :=
  c8_id_amended ('!' :: c8WLine) c8WModuleE (by rfl)

theorem splitChar_ne_nil (sep : Char) (s : List Char) :
    splitChar sep s ≠ [] := by
  cases s with
  | nil => simp [splitChar]
  | cons c cs =>
    cases h : splitChar sep cs with
    | nil => simp [splitChar, h]
    | cons r rs => by_cases hc : c = sep <;> simp [splitChar, h, hc]

theorem splitChar_append (sep : Char) (a b : List Char) (ha : sep ∉ a) :
    splitChar sep (a ++ sep :: b) = a :: splitChar sep b := by
  induction a with
  | nil =>
    simp only [List.nil_append, splitChar]
    cases h : splitChar sep b with
    | nil => exact absurd h (splitChar_ne_nil sep b)
    | cons r rs => simp
  | cons c a ih =>
    have hc : c ≠ sep := fun hcc => ha (hcc ▸ List.mem_cons_self c a)
    have ha2 : sep ∉ a := fun hmem => ha (List.mem_cons_of_mem c hmem)
    rw [List.cons_append]
    simp only [splitChar]
    rw [ih ha2]
    simp [hc]

theorem joinChar_cons_cons (sep : Char) (x : List Char) (r : List Char)
    (rs : List (List Char)) :
    joinChar sep ((x ++ r) :: rs) = x ++ joinChar sep (r :: rs) := by
  cases rs with
  | nil => simp [joinChar]
  | cons y ys => simp [joinChar]

theorem joinChar_splitChar (sep : Char) (s : List Char) :
    joinChar sep (splitChar sep s) = s := by
  induction s with
  | nil => simp [splitChar, joinChar]
  | cons c cs ih =>
    cases h : splitChar sep cs with
    | nil => exact absurd h (splitChar_ne_nil sep cs)
    | cons r rs =>
      rw [h] at ih
      by_cases hc : c = sep
      · have hsplit : splitChar sep (c :: cs) = [] :: r :: rs := by
          simp [splitChar, h, hc]
        rw [hsplit]
        simp only [joinChar, List.nil_append, ih]
        rw [hc]
      · have hsplit : splitChar sep (c :: cs) = (c :: r) :: rs := by
          simp [splitChar, h, hc]
        rw [hsplit]
        have hx : (c :: r) :: rs = ([c] ++ r) :: rs := by simp
        rw [hx, joinChar_cons_cons, ih]
        simp

theorem cutChar_append (sep : Char) (a b : List Char) (ha : sep ∉ a) :
    cutChar sep (a ++ sep :: b) = (a, b, true) := by
  induction a with
  | nil => simp [cutChar]
  | cons c a ih =>
    have hc : c ≠ sep := fun hcc => ha (hcc ▸ List.mem_cons_self c a)
    have ha2 : sep ∉ a := fun hmem => ha (List.mem_cons_of_mem c hmem)
    simp [cutChar, hc, ih ha2]

/-- A string of exactly 40 hex digits matches the unanchored 40-hex search. -/
theorem fullCommitHashMatch_of_hex40 (h : List Char) (hlen : h.length = 40)
    (hhex : ∀ c ∈ h, isGoHexDigit c = true) :
    fullCommitHashMatch h = true := by
  unfold fullCommitHashMatch
  rw [List.any_eq_true]
  refine ⟨0, ?_, ?_⟩
  · rw [List.mem_range, hlen]
    norm_num
  · rw [List.drop_zero, ← hlen, List.take_length]
    simp only [hlen, beq_self_eq_true, Bool.true_and]
    rw [List.all_eq_true]
    exact hhex

theorem rdropWhile_eq_self_of_last (p : α → Bool) (l : List α)
    (h : ∀ c, l.getLast? = some c → p c = false) :
    l.rdropWhile p = l := by
  rcases List.eq_nil_or_concat l with hnil | ⟨M, x, hMx⟩
  · subst hnil; simp
  · rw [List.concat_eq_append] at hMx
    subst hMx
    refine List.rdropWhile_concat_neg p M x ?_
    have hx := h x (by simp)
    simp [hx]

theorem dropWhile_eq_self_of_head (p : α → Bool) (l : List α)
    (h : ∀ c, l.head? = some c → p c = false) : l.dropWhile p = l := by
  cases l with
  | nil => rfl
  | cons c cs =>
    have hc := h c rfl
    simp [List.dropWhile_cons, hc]

/-- C3 amended: for owner and repo segments free of slashes, a path free of
`@`, a 40-hex-character hash and a tag with no trailing whitespace, parsing
`github.com/o/r/p@h:t` succeeds with host github.com, owner o, repo r, ref h,
tag t, and slashPath `github.com/o/r/h/p` — the canonical slash path includes
the host segment, unlike the claimed `o/r/h/p`. -/
theorem c3_parse_amended (o r p h t : List Char)
    (ho : '/' ∉ o) (hr : '/' ∉ r) (hp : '@' ∉ p)
    (hlen : h.length = 40) (hhex : ∀ c ∈ h, isGoHexDigit c = true)
    (ht : ∀ c, t.getLast? = some c → goIsSpace c = false) :
    ParseModuleLine ("github.com/".data ++ o ++ "/".data ++ r ++ "/".data ++
        p ++ "@".data ++ h ++ ":".data ++ t) =
      Except.ok
        { id := "github.com/".data ++ o ++ "/".data ++ r ++ "/".data ++ p ++
            "@".data ++ h ++ ":".data ++ t
          slashPath := "github.com/".data ++ o ++ "/".data ++ r ++ "/".data ++
            h ++ "/".data ++ p
          archive := some
            { ty := "github".data, host := "github.com".data, repoOwner := o,
              repoName := r, ref := h, tag := t }
          excluded := false } := by
  have e1 : "github.com/".data = "github.com".data ++ ['/'] := rfl
  have e2 : "/".data = ['/'] := rfl
  have e3 : "@".data = ['@'] := rfl
  have e4 : ":".data = [':'] := rfl
  have hcolon : (':' : Char) ∉ h := by
    intro hch
    exact absurd (hhex ':' hch) (by decide)
  set L := "github.com/".data ++ o ++ "/".data ++ r ++ "/".data ++ p ++
    "@".data ++ h ++ ":".data ++ t with hLdef
  have hline : L = "github.com".data ++
      '/' :: (o ++ '/' :: (r ++ '/' :: (p ++ '@' :: (h ++ ':' :: t)))) := by
    rw [hLdef]
    simp only [e1, e2, e3, e4, List.append_assoc, List.singleton_append,
      List.cons_append, List.nil_append]
  have hhead : L.head? = some 'g' := by rw [hline]; rfl
  have htrim : trimSpace L = L := by
    have hh : ∀ c, L.head? = some c → goIsSpace c = false := by
      intro c hc
      rw [hhead] at hc
      injection hc with hc2
      subst hc2
      decide
    have hl : ∀ c, L.getLast? = some c → goIsSpace c = false := by
      intro c hc
      rw [hLdef, List.getLast?_append] at hc
      cases hct : t.getLast? with
      | some x =>
        rw [hct] at hc
        simp only [Option.or] at hc
        injection hc with hc2
        subst hc2
        exact ht x hct
      | none =>
        rw [hct] at hc
        simp only [Option.or] at hc
        rw [List.getLast?_concat] at hc
        injection hc with hc2
        subst hc2
        decide
    unfold trimSpace
    rw [dropWhile_eq_self_of_head goIsSpace L hh]
    exact rdropWhile_eq_self_of_last goIsSpace L hl
  have hPL : ParseModuleLine L = parseAfterExcl L false := by
    show (if (trimSpace L).head? = some '!' then
            parseAfterExcl (trimSpace ((trimSpace L).drop 1)) true
          else parseAfterExcl (trimSpace L) false) = _
    rw [htrim, hhead, if_neg (by decide)]
  obtain ⟨r1, rs, hrr⟩ :
      ∃ r1 rs, splitChar '/' (p ++ '@' :: (h ++ ':' :: t)) = r1 :: rs := by
    cases hq : splitChar '/' (p ++ '@' :: (h ++ ':' :: t)) with
    | nil => exact absurd hq (splitChar_ne_nil _ _)
    | cons a b => exact ⟨a, b, rfl⟩
  have hsplitL : splitChar '/' L = "github.com".data :: o :: r :: r1 :: rs := by
    rw [hline, splitChar_append '/' ("github.com".data) _ (by decide),
      splitChar_append '/' o _ ho, splitChar_append '/' r _ hr, hrr]
  have hcut1 : cutChar '@' (joinChar '/' (r1 :: rs)) =
      (p, h ++ ':' :: t, true) := by
    rw [← hrr, joinChar_splitChar]
    exact cutChar_append '@' p (h ++ ':' :: t) hp
  have hcut2 : cutChar ':' (h ++ ':' :: t) = (h, t, true) :=
    cutChar_append ':' h t hcolon
  have hval : validateRef h = Except.ok () := by
    unfold validateRef
    rw [if_pos (fullCommitHashMatch_of_hex40 h hlen hhex)]
  rw [hPL]
  unfold parseAfterExcl
  rw [hsplitL]
  simp only [parseElems, hcut1, hcut2, hval, ne_eq, not_true_eq_false,
    if_false, ite_false, reduceIte]
  simp [joinChar, e1, e2, List.append_assoc]

theorem parseResult_err_or_out (jd : List Char → Option JSONValue)
    (s : List Char) :
    ((parseResult jd s).2.2).isSome ∨ ((parseResult jd s).1).isSome := by
  unfold parseResult
  cases jd s with
  | none => left; rfl
  | some rs =>
    dsimp only
    cases decodeFindings rs with
    | none => left; rfl
    | some out => right; rfl

theorem evaluateLintFile_key (marshal : TopLevelArgment →
      Except (List Char) (List Char))
    (vm : List Char → JsonnetNode → Except (List Char) (List Char))
    (jd : List Char → Option JSONValue) (tla : TopLevelArgment) (lf : NodeD) :
    (evaluateLintFile marshal vm jd tla lf).lintFile = lf.key := by
  unfold evaluateLintFile
  split <;> rfl

theorem evaluateLintFile_err_or_result (marshal : TopLevelArgment →
      Except (List Char) (List Char))
    (vm : List Char → JsonnetNode → Except (List Char) (List Char))
    (jd : List Char → Option JSONValue) (tla : TopLevelArgment) (lf : NodeD) :
    ((evaluateLintFile marshal vm jd tla lf).error).isSome ∨
      ((evaluateLintFile marshal vm jd tla lf).rawResult).isSome := by
  unfold evaluateLintFile
  split
  · left; rfl
  · exact parseResult_err_or_out jd _

/-- C10: for every marshalling, engine and JSON-decoding behaviour, every
top-level argument and every rule-node list, Evaluates totally produces
exactly one outcome per rule node, in input order, the i-th outcome keyed by
the i-th rule's key, and every outcome carries an error or a raw evaluation
result. -/
theorem c10_evaluates_pointwise (marshal : TopLevelArgment →
      Except (List Char) (List Char))
    (vm : List Char → JsonnetNode → Except (List Char) (List Char))
    (jd : List Char → Option JSONValue) (tla : TopLevelArgment)
    (lintFiles : List NodeD) :
    List.Forall₂
      (fun rd lf => rd.lintFile = lf.key ∧
        (rd.error.isSome ∨ rd.rawResult.isSome))
      (Evaluates marshal vm jd tla lintFiles) lintFiles := by
  induction lintFiles with
  | nil => exact List.Forall₂.nil
  | cons lf lfs ih =>
    exact List.Forall₂.cons
      ⟨evaluateLintFile_key marshal vm jd tla lf,
        evaluateLintFile_err_or_result marshal vm jd tla lf⟩ ih

/-- C5: when the engine output decodes as JSON into an untyped value but that
value is not an array of finding objects, the recorded outcome keeps the
untyped value and the raw output alongside the shape error — the first decode
is never discarded. -/
theorem c5_shape_error_retains (jd : List Char → Option JSONValue)
    (s : List Char) (v : JSONValue) (h1 : jd s = some v)
    (h2 : decodeFindings v = none)
    (marshal : TopLevelArgment → Except (List Char) (List Char))
    (vm : List Char → JsonnetNode → Except (List Char) (List Char))
    (tla : TopLevelArgment) (lf : NodeD)
    (heval : Evaluate marshal vm (perRuleTLA tla lf) lf.node =
      Except.ok s) :
    parseResult jd s = (none, some v, some unmarshalErrMsg) ∧
    Evaluates marshal vm jd tla [lf] =
      [{ lintFile := lf.key, rawResult := none, rawOutput := s,
         iface := some v, error := some unmarshalErrMsg }] := by
  have hpr : parseResult jd s = (none, some v, some unmarshalErrMsg) := by
    unfold parseResult
    rw [h1]
    dsimp only
    rw [h2]
  refine ⟨hpr, ?_⟩
  simp only [Evaluates, List.map_cons, List.map_nil]
  have hred : evaluateLintFile marshal vm jd tla lf =
      { lintFile := lf.key, rawResult := (parseResult jd s).1, rawOutput := s,
        iface := (parseResult jd s).2.1, error := (parseResult jd s).2.2 } := by
    unfold evaluateLintFile
    rw [heval]
  rw [hred, hpr]

theorem c5_shape_error_retains_witness :
    parseResult c5Wjd [] = (none, some (JSONValue.num 5),
      some unmarshalErrMsg) ∧
    Evaluates c5Wmarshal c5Wvm c5Wjd c5Wtla [c5Wlf] =
      [{ lintFile := c5Wlf.key, rawResult := none, rawOutput := [],
         iface := some (JSONValue.num 5), error := some unmarshalErrMsg }] :=
  c5_shape_error_retains c5Wjd [] (JSONValue.num 5) rfl rfl c5Wmarshal c5Wvm
    c5Wtla c5Wlf rfl

/-- C4: in a target with decoded data values `dvals`, the evaluation of the
j-th rule against the i-th data file receives a top-level argument whose
combinedData is the full ordered list `dvals` exactly when the rule is
combine-flagged (and nothing when it is not), whose data is the i-th file's
own value, and whose config is the rule's; a parsed rule node is
combine-flagged exactly when its file path ends in `_combine.jsonnet`. -/
theorem c4_combine_semantics
    (marshal : TopLevelArgment → Except (List Char) (List Char))
    (vm : List Char → JsonnetNode → Except (List Char) (List Char))
    (jd : List Char → Option JSONValue)
    (rules : List NodeD) (dvals : List JSONValue)
    (i : Fin dvals.length) (j : Fin rules.length) :
    ((evaluateTarget marshal vm jd rules dvals)[i.val]?).bind
        (fun row => row[j.val]?) =
      some (evaluateLintFile marshal vm jd
        (buildTLA dvals (dvals.get i) (rules.get j)) (rules.get j)) ∧
    (buildTLA dvals (dvals.get i) (rules.get j)).combinedData =
      (if (rules.get j).combine then some dvals else none) ∧
    (buildTLA dvals (dvals.get i) (rules.get j)).data = some (dvals.get i) ∧
    (buildTLA dvals (dvals.get i) (rules.get j)).config = (rules.get j).config ∧
    (∀ (readToNode : List Char → Except (List Char) JsonnetNode)
        (lf : LintFile) (nd : NodeD),
      parseLintFile readToNode lf = Except.ok nd →
      (nd.combine = true ↔
        ("_combine.jsonnet".data).isSuffixOf lf.path = true)) := by
  refine ⟨?_, ?_, ?_, ?_, ?_⟩
  · unfold evaluateTarget
    rw [List.getElem?_map, List.getElem?_eq_getElem i.isLt]
    simp only [Option.map_some', Option.some_bind]
    rw [List.getElem?_map, List.getElem?_eq_getElem j.isLt]
    simp only [Option.map_some', List.get_eq_getElem]
  · unfold buildTLA
    by_cases hc : (rules.get j).combine
    · rw [if_pos hc, if_pos hc]
    · rw [if_neg hc, if_neg hc]
  · unfold buildTLA
    by_cases hc : (rules.get j).combine
    · rw [if_pos hc]
    · rw [if_neg hc]
  · unfold buildTLA
    by_cases hc : (rules.get j).combine
    · rw [if_pos hc]
    · rw [if_neg hc]
  · intro readToNode lf nd hok
    unfold parseLintFile at hok
    cases hr : readToNode lf.path with
    | error e => rw [hr] at hok; exact Except.noConfusion hok
    | ok node =>
      rw [hr] at hok
      injection hok with h2
      subst h2
      exact Iff.rfl

theorem c4_combine_semantics_witness :
    ((evaluateTarget c4Wmarshal c4Wvm c4Wjd [c4Wrule] c4Wdvals)[0]?).bind
        (fun row => row[0]?) =
      some (evaluateLintFile c4Wmarshal c4Wvm c4Wjd
        (buildTLA c4Wdvals (c4Wdvals.get ⟨0, by decide⟩)
          (([c4Wrule] : List NodeD).get ⟨0, by decide⟩))
        (([c4Wrule] : List NodeD).get ⟨0, by decide⟩)) ∧
    (buildTLA c4Wdvals (c4Wdvals.get ⟨0, by decide⟩)
        (([c4Wrule] : List NodeD).get ⟨0, by decide⟩)).combinedData =
      (if (([c4Wrule] : List NodeD).get ⟨0, by decide⟩).combine then
        some c4Wdvals else none) ∧
    (buildTLA c4Wdvals (c4Wdvals.get ⟨0, by decide⟩)
        (([c4Wrule] : List NodeD).get ⟨0, by decide⟩)).data =
      some (c4Wdvals.get ⟨0, by decide⟩) ∧
    (buildTLA c4Wdvals (c4Wdvals.get ⟨0, by decide⟩)
        (([c4Wrule] : List NodeD).get ⟨0, by decide⟩)).config =
      (([c4Wrule] : List NodeD).get ⟨0, by decide⟩).config ∧
    (∀ (readToNode : List Char → Except (List Char) JsonnetNode)
        (lf : LintFile) (nd : NodeD),
      parseLintFile readToNode lf = Except.ok nd →
      (nd.combine = true ↔
        ("_combine.jsonnet".data).isSuffixOf lf.path = true)) :=
  c4_combine_semantics c4Wmarshal c4Wvm c4Wjd [c4Wrule] c4Wdvals
    ⟨0, by decide⟩ ⟨0, by decide⟩

/-- C6: a non-empty threshold string that names no defined severity level
makes the run fail with that error for every engine, filesystem and target
behaviour — in particular the result does not depend on getResults, so no
evaluation outcome is produced — while the empty threshold string defaults to
the error level instead of failing. -/
theorem c6_invalid_threshold (s e : List Char) (hne : s ≠ [])
    (h : errlevelNew s = Except.error e) :
    (∀ (R : Type)
        (marshal1 : TopLevelArgment1 → Except (List Char) (List Char))
        (vm : List Char → JsonnetNode → Except (List Char) (List Char))
        (parseDF : List Char → Except (List Char) JSONValue)
        (conv : JsonnetEvaluateResult → R)
        (readJ : List LintFile → Except (List Char) (List Node1))
        (targets : List Target),
      lintRun marshal1 vm parseDF conv readJ s targets = Except.error e) ∧
    getErrorLevel [] = Except.ok Level.error := by
  have hge : getErrorLevel s = Except.error e := by
    unfold getErrorLevel
    rw [if_neg hne]
    exact h
  refine ⟨?_, rfl⟩
  intro R marshal1 vm parseDF conv readJ targets
  unfold lintRun
  rw [hge]

theorem c6_invalid_threshold_witness :
    (∀ (R : Type)
        (marshal1 : TopLevelArgment1 → Except (List Char) (List Char))
        (vm : List Char → JsonnetNode → Except (List Char) (List Char))
        (parseDF : List Char → Except (List Char) JSONValue)
        (conv : JsonnetEvaluateResult → R)
        (readJ : List LintFile → Except (List Char) (List Node1))
        (targets : List Target),
      lintRun marshal1 vm parseDF conv readJ ("critical".data) targets =
        Except.error ("invalid error level: ".data ++ "critical".data)) ∧
    getErrorLevel [] = Except.ok Level.error :=
  c6_invalid_threshold ("critical".data)
    ("invalid error level: ".data ++ "critical".data) (by decide) (by rfl)

theorem lookupFR_goInsert {R : Type} (m : FRMap R) (k k1 : List Char)
    (v : FileResult R) :
    lookupFR (goInsert m k v) k1 = if k1 = k then some v else lookupFR m k1 := by
  induction m with
  | nil =>
    simp only [goInsert, lookupFR]
    by_cases h : k = k1
    · subst h
      rw [if_pos rfl]
    · rw [if_neg h, if_neg (fun hh => h hh.symm)]
  | cons kv rest ih =>
    obtain ⟨k2, v2⟩ := kv
    simp only [goInsert]
    by_cases h2 : k2 = k
    · subst h2
      simp only [if_pos rfl, lookupFR]
      by_cases h3 : k2 = k1
      · subst h3
        rw [if_pos rfl, if_pos rfl]
      · rw [if_neg h3, if_neg h3, if_neg (fun hh => h3 hh.symm)]
    · rw [if_neg h2]
      simp only [lookupFR]
      by_cases h3 : k2 = k1
      · rw [if_pos h3, if_pos h3, if_neg (fun hh => h2 (h3.trans hh))]
      · rw [if_neg h3, if_neg h3]
        exact ih

theorem keys_goInsert {R : Type} (m : FRMap R) (k : List Char)
    (v : FileResult R) :
    (goInsert m k v).map Prod.fst =
      if k ∈ m.map Prod.fst then m.map Prod.fst else m.map Prod.fst ++ [k] := by
  induction m with
  | nil =>
    simp only [goInsert, List.map_nil, List.map_cons]
    rw [if_neg (List.not_mem_nil k)]
    rfl
  | cons kv rest ih =>
    obtain ⟨k2, v2⟩ := kv
    simp only [goInsert, List.map_cons]
    by_cases h2 : k2 = k
    · subst h2
      rw [if_pos rfl, if_pos (List.mem_cons_self k2 (rest.map Prod.fst))]
      rw [List.map_cons]
    · rw [if_neg h2, List.map_cons, ih]
      by_cases h3 : k ∈ rest.map Prod.fst
      · rw [if_pos h3, if_pos (List.mem_cons_of_mem k2 h3)]
      · rw [if_neg h3, if_neg ?hnm]
        · rfl
        · intro hmem
          rcases List.mem_cons.mp hmem with hh | hh
          · exact h2 hh.symm
          · exact h3 hh

theorem nodup_goInsert {R : Type} (m : FRMap R) (k : List Char)
    (v : FileResult R) (hnd : (m.map Prod.fst).Nodup) :
    ((goInsert m k v).map Prod.fst).Nodup := by
  rw [keys_goInsert]
  by_cases h : k ∈ m.map Prod.fst
  · rw [if_pos h]
    exact hnd
  · rw [if_neg h, List.nodup_append]
    exact ⟨hnd, List.nodup_singleton k,
      fun a ha hb => h (List.mem_singleton.mp hb ▸ ha)⟩

theorem lookupFR_foldInsert {R : Type} (g : List Char → FileResult R)
    (files : List (List Char)) (m0 : FRMap R) (p : List Char) :
    lookupFR (files.foldl (fun m f => goInsert m f (g f)) m0) p =
      if p ∈ files then some (g p) else lookupFR m0 p := by
  induction files generalizing m0 with
  | nil =>
    rw [List.foldl_nil, if_neg (List.not_mem_nil p)]
  | cons f fs ih =>
    rw [List.foldl_cons, ih]
    by_cases hpf : p ∈ fs
    · rw [if_pos hpf, if_pos (List.mem_cons_of_mem f hpf)]
    · rw [if_neg hpf, lookupFR_goInsert]
      by_cases hpe : p = f
      · subst hpe
        rw [if_pos rfl, if_pos (List.mem_cons_self p fs)]
      · rw [if_neg hpe, if_neg ?hnm]
        intro hmem
        rcases List.mem_cons.mp hmem with hh | hh
        · exact hpe hh
        · exact hpf hh

theorem nodup_foldInsert {R : Type} (g : List Char → FileResult R)
    (files : List (List Char)) (m0 : FRMap R)
    (hnd : (m0.map Prod.fst).Nodup) :
    (((files.foldl (fun m f => goInsert m f (g f)) m0)).map Prod.fst).Nodup := by
  induction files generalizing m0 with
  | nil => exact hnd
  | cons f fs ih =>
    rw [List.foldl_cons]
    exact ih _ (nodup_goInsert m0 f (g f) hnd)

theorem getResultsAux_spec {R : Type}
    (marshal1 : TopLevelArgment1 → Except (List Char) (List Char))
    (vm : List Char → JsonnetNode → Except (List Char) (List Char))
    (parseDF : List Char → Except (List Char) JSONValue)
    (conv : JsonnetEvaluateResult → R)
    (readJ : List LintFile → Except (List Char) (List Node1))
    (targets : List Target) (m0 : FRMap R)
    (hall : ∀ t ∈ targets, ∃ asts, readJ t.lintFiles = Except.ok asts) :
    ∃ final,
      getResultsAux marshal1 vm parseDF conv readJ targets m0 =
        Except.ok final ∧
      (∀ p, lookupFR final p =
        (lastFR marshal1 vm parseDF conv readJ targets p).or (lookupFR m0 p)) ∧
      ((m0.map Prod.fst).Nodup → (final.map Prod.fst).Nodup) := by
  induction targets generalizing m0 with
  | nil => exact ⟨m0, rfl, fun p => rfl, id⟩
  | cons t ts ih =>
    obtain ⟨asts, hasts⟩ := hall t (List.mem_cons_self t ts)
    have hstep : lintTarget marshal1 vm parseDF conv readJ t m0 =
        Except.ok (t.dataFiles.foldl
          (fun m f =>
            goInsert m f (lintDataFileFR marshal1 vm parseDF conv asts f))
          m0) := by
      unfold lintTarget
      rw [hasts]
    obtain ⟨final, hfin, hlook, hnd⟩ :=
      ih (t.dataFiles.foldl
        (fun m f =>
          goInsert m f (lintDataFileFR marshal1 vm parseDF conv asts f)) m0)
        (fun t2 ht2 => hall t2 (List.mem_cons_of_mem t ht2))
    refine ⟨final, ?_, ?_, ?_⟩
    · unfold getResultsAux
      rw [hstep]
      exact hfin
    · intro p
      rw [hlook p, lookupFR_foldInsert]
      simp only [lastFR]
      cases hl : lastFR marshal1 vm parseDF conv readJ ts p with
      | some fr => exact rfl
      | none =>
        unfold targetFR
        rw [hasts]
        dsimp only
        by_cases hp : p ∈ t.dataFiles
        · rw [if_pos hp, if_pos hp]
          exact rfl
        · rw [if_neg hp, if_neg hp]
          exact rfl
    · intro hnd0
      exact hnd (nodup_foldInsert _ _ _ hnd0)

theorem lastFR_isSome_iff {R : Type}
    (marshal1 : TopLevelArgment1 → Except (List Char) (List Char))
    (vm : List Char → JsonnetNode → Except (List Char) (List Char))
    (parseDF : List Char → Except (List Char) JSONValue)
    (conv : JsonnetEvaluateResult → R)
    (readJ : List LintFile → Except (List Char) (List Node1))
    (targets : List Target) (p : List Char)
    (hall : ∀ t ∈ targets, ∃ asts, readJ t.lintFiles = Except.ok asts) :
    (lastFR marshal1 vm parseDF conv readJ targets p).isSome ↔
      ∃ t ∈ targets, p ∈ t.dataFiles := by
  induction targets with
  | nil => simp [lastFR]
  | cons t ts ih =>
    obtain ⟨asts, hasts⟩ := hall t (List.mem_cons_self t ts)
    have ih2 := ih (fun t2 ht2 => hall t2 (List.mem_cons_of_mem t ht2))
    simp only [lastFR]
    have hor : ∀ (a b : Option (FileResult R)),
        (a.or b).isSome = (a.isSome || b.isSome) := by
      intro a b
      cases a <;> cases b <;> rfl
    rw [hor, Bool.or_eq_true]
    have htg : (targetFR marshal1 vm parseDF conv readJ t p).isSome = true ↔
        p ∈ t.dataFiles := by
      unfold targetFR
      rw [hasts]
      dsimp only
      by_cases hp : p ∈ t.dataFiles
      · rw [if_pos hp]
        simp [hp]
      · rw [if_neg hp]
        simp [hp]
    rw [ih2, htg]
    constructor
    · rintro (⟨t2, ht2, hp2⟩ | hp2)
      · exact ⟨t2, List.mem_cons_of_mem t ht2, hp2⟩
      · exact ⟨t, List.mem_cons_self t ts, hp2⟩
    · rintro ⟨t2, ht2, hp2⟩
      rcases List.mem_cons.mp ht2 with hh | hh
      · right
        exact hh ▸ hp2
      · left
        exact ⟨t2, hh, hp2⟩

/-- C9: getResults builds one result map entry per distinct data-file path
(its key list has no duplicates); the entry surviving for a path is the one
computed by the LAST target in order that contains the path — a later
target's FileResult overwrites an earlier target's for the same path — and a
path has an entry exactly when some target lists it. -/
theorem c9_last_target_wins {R : Type}
    (marshal1 : TopLevelArgment1 → Except (List Char) (List Char))
    (vm : List Char → JsonnetNode → Except (List Char) (List Char))
    (parseDF : List Char → Except (List Char) JSONValue)
    (conv : JsonnetEvaluateResult → R)
    (readJ : List LintFile → Except (List Char) (List Node1))
    (targets : List Target)
    (hall : ∀ t ∈ targets, ∃ asts, readJ t.lintFiles = Except.ok asts) :
    ∃ final,
      getResults marshal1 vm parseDF conv readJ targets = Except.ok final ∧
      (∀ p, lookupFR final p =
        lastFR marshal1 vm parseDF conv readJ targets p) ∧
      (final.map Prod.fst).Nodup ∧
      (∀ p, (lookupFR final p).isSome ↔ ∃ t ∈ targets, p ∈ t.dataFiles) := by
  obtain ⟨final, hfin, hlook, hnd⟩ :=
    getResultsAux_spec marshal1 vm parseDF conv readJ targets [] hall
  have hid : ∀ p, (lastFR marshal1 vm parseDF conv readJ targets p).or
      (lookupFR ([] : FRMap R) p) =
      lastFR marshal1 vm parseDF conv readJ targets p := by
    intro p
    cases lastFR marshal1 vm parseDF conv readJ targets p <;> exact rfl
  refine ⟨final, hfin, ?_, hnd (by simp), ?_⟩
  · intro p
    rw [hlook p, hid p]
  · intro p
    rw [hlook p, hid p]
    exact lastFR_isSome_iff marshal1 vm parseDF conv readJ targets p hall

/-- C1: for every marshalling, engine, data-file-decoding, result-conversion
and rule-file-reading behaviour — in particular when some rule evaluations
fail with errors — getResults succeeds and its map has a FileResult entry for
every data file of every target; moreover the outcome list for a data file is
the pointwise image of the per-rule evaluation, so the i-th outcome is a
function of the i-th rule and the file's data alone, unaffected by any other
pair's failure. -/
theorem c1_error_isolation {R : Type}
    (marshal1 : TopLevelArgment1 → Except (List Char) (List Char))
    (vm : List Char → JsonnetNode → Except (List Char) (List Char))
    (parseDF : List Char → Except (List Char) JSONValue)
    (conv : JsonnetEvaluateResult → R)
    (readJ : List LintFile → Except (List Char) (List Node1))
    (targets : List Target)
    (hall : ∀ t ∈ targets, ∃ asts, readJ t.lintFiles = Except.ok asts) :
    (∃ final,
      getResults marshal1 vm parseDF conv readJ targets = Except.ok final ∧
      ∀ t ∈ targets, ∀ f ∈ t.dataFiles, (lookupFR final f).isSome) ∧
    (∀ (d : JSONValue) (asts : List Node1),
      evaluate marshal1 vm d asts = asts.map (evaluateNode marshal1 vm d)) ∧
    (∀ (d : JSONValue) (asts : List Node1) (i : Fin asts.length),
      (evaluate marshal1 vm d asts)[i.val]? =
        some (evaluateNode marshal1 vm d (asts.get i))) := by
  refine ⟨?_, fun d asts => rfl, ?_⟩
  · obtain ⟨final, hfin, hlook, hnd⟩ :=
      getResultsAux_spec marshal1 vm parseDF conv readJ targets [] hall
    refine ⟨final, hfin, ?_⟩
    intro t ht f hf
    rw [hlook f]
    have hsome : (lastFR marshal1 vm parseDF conv readJ targets f).isSome :=
      (lastFR_isSome_iff marshal1 vm parseDF conv readJ targets f hall).mpr
        ⟨t, ht, hf⟩
    cases hl : lastFR marshal1 vm parseDF conv readJ targets f with
    | none =>
      rw [hl] at hsome
      exact absurd hsome (by simp)
    | some fr => exact rfl
  · intro d asts i
    unfold evaluate
    rw [List.getElem?_map, List.getElem?_eq_getElem i.isLt]
    simp only [Option.map_some', List.get_eq_getElem]

theorem c9_last_target_wins_witness :
    ∃ final,
      getResults c9Wmarshal1 c9Wvm c9WparseDF c9Wconv c9WreadJ c9Wtargets =
        Except.ok final ∧
      (∀ p, lookupFR final p =
        lastFR c9Wmarshal1 c9Wvm c9WparseDF c9Wconv c9WreadJ c9Wtargets p) ∧
      (final.map Prod.fst).Nodup ∧
      (∀ p, (lookupFR final p).isSome ↔
        ∃ t ∈ c9Wtargets, p ∈ t.dataFiles) :=
  c9_last_target_wins c9Wmarshal1 c9Wvm c9WparseDF c9Wconv c9WreadJ
    c9Wtargets (fun _ _ => ⟨[{ node := [], custom := none, key := "k".data }],
      rfl⟩)

theorem c1_error_isolation_witness :
    (∃ final,
      getResults c1Wmarshal1 c1Wvm c1WparseDF c1Wconv c1WreadJ c1Wtargets =
        Except.ok final ∧
      ∀ t ∈ c1Wtargets, ∀ f ∈ t.dataFiles, (lookupFR final f).isSome) ∧
    (∀ (d : JSONValue) (asts : List Node1),
      evaluate c1Wmarshal1 c1Wvm d asts =
        asts.map (evaluateNode c1Wmarshal1 c1Wvm d)) ∧
    (∀ (d : JSONValue) (asts : List Node1) (i : Fin asts.length),
      (evaluate c1Wmarshal1 c1Wvm d asts)[i.val]? =
        some (evaluateNode c1Wmarshal1 c1Wvm d (asts.get i))) :=
  c1_error_isolation c1Wmarshal1 c1Wvm c1WparseDF c1Wconv c1WreadJ c1Wtargets
    (fun _ _ => ⟨[{ node := [], custom := none, key := "r1".data },
      { node := [], custom := none, key := "r2".data }], rfl⟩)

theorem c3_parse_amended_witness :
    ParseModuleLine ("github.com/".data ++ "o".data ++ "/".data ++ "r".data ++
        "/".data ++ "p".data ++ "@".data ++ List.replicate 40 'a' ++
        ":".data ++ "t".data) =
      Except.ok
        { id := "github.com/".data ++ "o".data ++ "/".data ++ "r".data ++
            "/".data ++ "p".data ++ "@".data ++ List.replicate 40 'a' ++
            ":".data ++ "t".data
          slashPath := "github.com/".data ++ "o".data ++ "/".data ++
            "r".data ++ "/".data ++ List.replicate 40 'a' ++ "/".data ++
            "p".data
          archive := some
            { ty := "github".data, host := "github.com".data,
              repoOwner := "o".data, repoName := "r".data,
              ref := List.replicate 40 'a', tag := "t".data }
          excluded := false } :=
  c3_parse_amended "o".data "r".data "p".data (List.replicate 40 'a') "t".data
    (by decide) (by decide) (by decide) (by decide) (by decide)
    (by
      intro c hc
      have h2 : ("t".data).getLast? = some 't' := rfl
      rw [h2] at hc
      injection hc with h3
      subst h3
      decide)
